import Mathlib

/-!
A shallow embedding of the log-sharding program (src/main.rs) and proofs of
the specification claims about it.

The embedding mirrors the Rust source:
* JSON values and the line decoder model serde_json's value type and
  the functions parse_line / parse_date;
* timestamps model chrono's NaiveDateTime restricted to the fixed format
  "%Y-%m-%d %H:%M:%S,%f" used by the program (four-digit years);
* the filesystem is an association list from target path to the list of
  compressed frames appended to that target, one frame per dump_line call,
  each frame's decompressed content being the raw line plus a newline;
* process_log_file is a fold of a per-line step over the input items; an
  input item is either a successfully read line or a read error, matching
  the "while let Some(Ok(line))" loop;
* write failures of dump_line are injected through Boolean oracles indexed
  by the running read counter, since they are environmental conditions.
-/

set_option maxHeartbeats 1000000
set_option linter.unnecessarySeqFocus false
set_option linter.unusedVariables false

deriving instance DecidableEq for Except

/-- Calendar date, as chrono's NaiveDate date component (year, month, day). -/
structure NaiveDate where
  year : Nat
  month : Nat
  day : Nat
deriving DecidableEq, Repr

/-- Timestamp, as chrono's NaiveDateTime: a date plus a time of day. -/
structure NaiveDateTime where
  date : NaiveDate
  hour : Nat
  minute : Nat
  second : Nat
  nano : Nat
deriving DecidableEq, Repr

/-- Digit test on a character, by code point. -/
def isDig (c : Char) : Bool := 48 ≤ c.toNat && c.toNat ≤ 57

/-- Numeric value of a digit character. -/
def digitVal (c : Char) : Nat := c.toNat - 48

/-- Gregorian leap-year rule, as used by chrono for date validation. -/
def isLeap (y : Nat) : Bool := (y % 4 == 0 && y % 100 != 0) || (y % 400 == 0)

/-- Number of days in a month, for date validation. -/
def daysInMonth (y m : Nat) : Nat :=
  if m = 2 then (if isLeap y then 29 else 28)
  else if m = 4 ∨ m = 6 ∨ m = 9 ∨ m = 11 then 30
  else 31

/-- Model of chrono's NaiveDateTime.parse_from_str with the fixed format
"%Y-%m-%d %H:%M:%S,%f": a four-digit year, two-digit month, day, hour,
minute and second, a comma, and one to nine fractional-second digits; the
whole string must be consumed and the date and time must be valid. -/
def parse_from_str (s : String) : Option NaiveDateTime :=
  match s.data with
  | y1 :: y2 :: y3 :: y4 :: '-' :: m1 :: m2 :: '-' :: d1 :: d2 :: ' ' ::
    h1 :: h2 :: ':' :: mi1 :: mi2 :: ':' :: s1 :: s2 :: ',' :: frac =>
    if isDig y1 && isDig y2 && isDig y3 && isDig y4 &&
       isDig m1 && isDig m2 && isDig d1 && isDig d2 &&
       isDig h1 && isDig h2 && isDig mi1 && isDig mi2 &&
       isDig s1 && isDig s2 &&
       frac.all isDig && decide (1 ≤ frac.length) && decide (frac.length ≤ 9) then
      let y := digitVal y1 * 1000 + digitVal y2 * 100 + digitVal y3 * 10 + digitVal y4
      let mo := digitVal m1 * 10 + digitVal m2
      let da := digitVal d1 * 10 + digitVal d2
      let ho := digitVal h1 * 10 + digitVal h2
      let mi := digitVal mi1 * 10 + digitVal mi2
      let se := digitVal s1 * 10 + digitVal s2
      let ns := (frac.foldl (fun acc c => acc * 10 + digitVal c) 0) *
                  10 ^ (9 - frac.length)
      if 1 ≤ mo && mo ≤ 12 && 1 ≤ da && da ≤ daysInMonth y mo &&
         ho ≤ 23 && mi ≤ 59 && se ≤ 59 then
        some ⟨⟨y, mo, da⟩, ho, mi, se, ns⟩
      else none
    else none
  | _ => none

/-- JSON values, as serde_json's Value type (numbers kept as their lexeme). -/
inductive Json where
  | null : Json
  | bool (b : Bool) : Json
  | num (lexeme : String) : Json
  | str (s : String) : Json
  | arr (elems : List Json) : Json
  | obj (members : List (String × Json)) : Json

/-- Whether a JSON value is an object, as Value::is_object. -/
def Json.is_object : Json → Bool
  | .obj _ => true
  | _ => false

/-- Last binding of a key in an object's member list; serde_json builds its
map with later duplicate keys overriding earlier ones. -/
def lookupLast (key : String) : List (String × Json) → Option Json
  | [] => none
  | (k, v) :: rest =>
    match lookupLast key rest with
    | some r => some r
    | none => if k = key then some v else none

/-- Indexing a JSON value by field name, as Value's Index for string keys:
the member's value on an object that has the key, Null otherwise. -/
def Json.index (j : Json) (key : String) : Json :=
  match j with
  | .obj members => (lookupLast key members).getD .null
  | _ => .null

/-- String content of a JSON value, as Value::as_str. -/
def Json.as_str : Json → Option String
  | .str s => some s
  | _ => none

/-- JSON whitespace. -/
def isJsonWs (c : Char) : Bool := c = ' ' ∨ c = '\t' ∨ c = '\n' ∨ c = '\r'

/-- Drop leading JSON whitespace. -/
def skipWs : List Char → List Char
  | [] => []
  | c :: rest => if isJsonWs c then skipWs rest else c :: rest

/-- Hex digit value, for string escapes. -/
def hexVal (c : Char) : Option Nat :=
  if isDig c then some (digitVal c)
  else if 97 ≤ c.toNat ∧ c.toNat ≤ 102 then some (c.toNat - 87)
  else if 65 ≤ c.toNat ∧ c.toNat ≤ 70 then some (c.toNat - 55)
  else none

/-- Body of a JSON string literal after the opening quote: returns the
decoded characters and the input after the closing quote.  Escapes follow
the JSON grammar; unpaired surrogate escapes are rejected, as are unescaped
control characters. -/
def pStringBody : List Char → Option (List Char × List Char)
  | [] => none
  | '"' :: rest => some ([], rest)
  | '\\' :: esc =>
    match esc with
    | '"' :: rest => (pStringBody rest).map (fun (cs, r) => ('"' :: cs, r))
    | '\\' :: rest => (pStringBody rest).map (fun (cs, r) => ('\\' :: cs, r))
    | '/' :: rest => (pStringBody rest).map (fun (cs, r) => ('/' :: cs, r))
    | 'b' :: rest => (pStringBody rest).map (fun (cs, r) => ('\x08' :: cs, r))
    | 'f' :: rest => (pStringBody rest).map (fun (cs, r) => ('\x0c' :: cs, r))
    | 'n' :: rest => (pStringBody rest).map (fun (cs, r) => ('\n' :: cs, r))
    | 'r' :: rest => (pStringBody rest).map (fun (cs, r) => ('\r' :: cs, r))
    | 't' :: rest => (pStringBody rest).map (fun (cs, r) => ('\t' :: cs, r))
    | 'u' :: h1 :: h2 :: h3 :: h4 :: rest =>
      match hexVal h1, hexVal h2, hexVal h3, hexVal h4 with
      | some a, some b, some c, some d =>
        let n := ((a * 16 + b) * 16 + c) * 16 + d
        if h : n < 0xd800 then
          (pStringBody rest).map (fun (cs, r) => (Char.ofNatAux n (Or.inl h) :: cs, r))
        else if h2 : 0xe000 ≤ n ∧ n < 0x110000 then
          (pStringBody rest).map (fun (cs, r) =>
            (Char.ofNatAux n (Or.inr h2) :: cs, r))
        else none
      | _, _, _, _ => none
    | _ => none
  | c :: rest =>
    if c.toNat < 32 then none
    else (pStringBody rest).map (fun (cs, r) => (c :: cs, r))

/-- Digits of a number lexeme (helper for the number grammar). -/
def takeDigs (s : List Char) : List Char × List Char :=
  match s with
  | [] => ([], [])
  | c :: rest =>
    if isDig c then
      let (ds, r) := takeDigs rest
      (c :: ds, r)
    else ([], s)

/-- JSON number lexeme after an optional leading minus has been consumed:
integer part without leading zeros, optional fraction, optional exponent.
Returns the lexeme characters and the remaining input. -/
def pNumTail (s : List Char) : Option (List Char × List Char) :=
  match s with
  | '0' :: rest =>
    match rest with
    | c :: _ =>
      if isDig c then none
      else
        let (fr, r1) := pFracExp rest
        some ('0' :: fr, r1)
    | [] => some (['0'], [])
  | c :: _ =>
    if isDig c then
      let (ds, r) := takeDigs s
      let (fr, r1) := pFracExp r
      some (ds ++ fr, r1)
    else none
  | [] => none
where
  /-- Optional fraction and exponent parts. -/
  pFracExp (s : List Char) : List Char × List Char :=
    let (fr, r) :=
      match s with
      | '.' :: rest =>
        match takeDigs rest with
        | ([], _) => ([], s)
        | (ds, r) => ('.' :: ds, r)
      | _ => ([], s)
    match r with
    | 'e' :: rest => pExp fr r 'e' rest
    | 'E' :: rest => pExp fr r 'E' rest
    | _ => (fr, r)
  /-- Exponent part after the e marker. -/
  pExp (fr : List Char) (orig : List Char) (e : Char) (rest : List Char) :
      List Char × List Char :=
    match rest with
    | '+' :: rest2 =>
      (match takeDigs rest2 with
       | ([], _) => (fr, orig)
       | (ds, r2) => (fr ++ e :: '+' :: ds, r2))
    | '-' :: rest2 =>
      (match takeDigs rest2 with
       | ([], _) => (fr, orig)
       | (ds, r2) => (fr ++ e :: '-' :: ds, r2))
    | _ =>
      (match takeDigs rest with
       | ([], _) => (fr, orig)
       | (ds, r2) => (fr ++ e :: ds, r2))

mutual

/-- One JSON value, fuel-bounded recursive-descent parser. -/
def pVal (fuel : Nat) (s : List Char) : Option (Json × List Char) :=
  match fuel with
  | 0 => none
  | fuel + 1 =>
    match skipWs s with
    | 't' :: 'r' :: 'u' :: 'e' :: rest => some (.bool true, rest)
    | 'f' :: 'a' :: 'l' :: 's' :: 'e' :: rest => some (.bool false, rest)
    | 'n' :: 'u' :: 'l' :: 'l' :: rest => some (.null, rest)
    | '"' :: rest =>
      (pStringBody rest).map (fun (cs, r) => (.str ⟨cs⟩, r))
    | '[' :: rest =>
      (match skipWs rest with
       | ']' :: r2 => some (.arr [], r2)
       | _ =>
         (pElems fuel rest).map (fun (es, r) => (.arr es, r)))
    | '{' :: rest =>
      (match skipWs rest with
       | '}' :: r2 => some (.obj [], r2)
       | _ =>
         (pMembers fuel rest).map (fun (ms, r) => (.obj ms, r)))
    | '-' :: rest =>
      (pNumTail rest).map (fun (ds, r) => (.num ⟨'-' :: ds⟩, r))
    | s2 =>
      (pNumTail s2).map (fun (ds, r) => (.num ⟨ds⟩, r))

/-- Array elements, comma separated, ending at the closing bracket. -/
def pElems (fuel : Nat) (s : List Char) : Option (List Json × List Char) :=
  match fuel with
  | 0 => none
  | fuel + 1 =>
    match pVal fuel s with
    | none => none
    | some (v, r) =>
      match skipWs r with
      | ',' :: r2 =>
        (pElems fuel r2).map (fun (es, r3) => (v :: es, r3))
      | ']' :: r2 => some ([v], r2)
      | _ => none

/-- Object members, comma separated, ending at the closing brace. -/
def pMembers (fuel : Nat) (s : List Char) :
    Option (List (String × Json) × List Char) :=
  match fuel with
  | 0 => none
  | fuel + 1 =>
    match skipWs s with
    | '"' :: rest =>
      match pStringBody rest with
      | none => none
      | some (key, r) =>
        match skipWs r with
        | ':' :: r2 =>
          match pVal fuel r2 with
          | none => none
          | some (v, r3) =>
            match skipWs r3 with
            | ',' :: r4 =>
              (pMembers fuel r4).map (fun (ms, r5) => ((⟨key⟩, v) :: ms, r5))
            | '}' :: r4 => some ([(⟨key⟩, v)], r4)
            | _ => none
        | _ => none
    | _ => none

end

/-- Model of parse_line: serde_json::from_str on one input line, requiring a
single JSON value with nothing but whitespace around it. -/
def parse_line (line : String) : Except Unit Json :=
  match pVal (line.data.length + 1) line.data with
  | some (v, rest) =>
    if (skipWs rest).isEmpty then .ok v else .error ()
  | none => .error ()

/-- Model of parse_date: decode the line as JSON, require an object, read the
asctime field as a string, and parse it with the fixed timestamp format. -/
def parse_date (line : String) : Except Unit NaiveDateTime :=
  match parse_line line with
  | .error _ => .error ()
  | .ok log_entry =>
    if !log_entry.is_object then .error ()
    else
      match (log_entry.index "asctime").as_str with
      | some asctime =>
        match parse_from_str asctime with
        | some timestamp => .ok timestamp
        | none => .error ()
      | none => .error ()

/-- Date component of a successfully decoded line, if any. -/
def dateOf (line : String) : Option NaiveDate :=
  match parse_date line with
  | .ok ts => some ts.date
  | .error _ => none

/-- Dates of the decodable lines of a stream, in stream order. -/
def datesOf (lines : List String) : List NaiveDate := lines.filterMap dateOf

/-- Digit character of a single decimal digit. -/
def digitChar (n : Nat) : Char :=
  match n with
  | 0 => '0' | 1 => '1' | 2 => '2' | 3 => '3' | 4 => '4'
  | 5 => '5' | 6 => '6' | 7 => '7' | 8 => '8' | _ => '9'

/-- Two-digit zero-padded decimal, as chrono's %m and %d for values below 100. -/
def pad2c (n : Nat) : List Char := [digitChar (n / 10 % 10), digitChar (n % 10)]

/-- Four-digit zero-padded decimal, as chrono's %Y for years 0 to 9999 (the
only years parse_from_str can produce). -/
def pad4c (n : Nat) : List Char :=
  [digitChar (n / 1000 % 10), digitChar (n / 100 % 10),
   digitChar (n / 10 % 10), digitChar (n % 10)]

/-- Date formatted as "%Y-%m-%d", used to derive shard target names. -/
def NaiveDate.format (d : NaiveDate) : String :=
  ⟨pad4c d.year ++ '-' :: pad2c d.month ++ '-' :: pad2c d.day⟩

/-- Shard target path for a date key under an output path. -/
def shardPath (out : String) (d : NaiveDate) : String :=
  out ++ "." ++ d.format ++ ".jsonl.gz"

/-- Error target path under an output path. -/
def errorPath (out : String) : String := out ++ ".error.gz"

/-- Dates representable by the four-digit timestamp format; every date key
produced by parse_date lies in this range, and NaiveDate.format agrees with
chrono exactly on it. -/
def InRange (d : NaiveDate) : Prop :=
  d.year < 10000 ∧ d.month < 100 ∧ d.day < 100

instance (d : NaiveDate) : Decidable (InRange d) :=
  inferInstanceAs (Decidable (d.year < 10000 ∧ d.month < 100 ∧ d.day < 100))

/-- Non-decreasing order on dates (chrono's lexicographic NaiveDate order). -/
def dLe (a b : NaiveDate) : Prop :=
  a.year < b.year ∨
    (a.year = b.year ∧ (a.month < b.month ∨ (a.month = b.month ∧ a.day ≤ b.day)))

instance (a b : NaiveDate) : Decidable (dLe a b) :=
  inferInstanceAs (Decidable (a.year < b.year ∨
    (a.year = b.year ∧ (a.month < b.month ∨ (a.month = b.month ∧ a.day ≤ b.day)))))

/-- Strict order on dates. -/
def dLt (a b : NaiveDate) : Prop :=
  a.year < b.year ∨
    (a.year = b.year ∧ (a.month < b.month ∨ (a.month = b.month ∧ a.day < b.day)))

instance (a b : NaiveDate) : Decidable (dLt a b) :=
  inferInstanceAs (Decidable (a.year < b.year ∨
    (a.year = b.year ∧ (a.month < b.month ∨ (a.month = b.month ∧ a.day < b.day)))))

/-- Non-decreasing order of a list of date keys, checked pairwise. -/
def sortedByDate : List NaiveDate → Bool
  | a :: b :: rest => decide (dLe a b) && sortedByDate (b :: rest)
  | _ => true

/-- The observable filesystem: each created target path mapped to the list of
compressed frames appended to it, in append order.  A frame is recorded by
its decompressed content; decompressing a whole target concatenates the
frames. -/
abbrev FS := List (String × List String)

/-- Frames of a target path; the empty list when the target was never
created (an existing target with no frames also decompresses to nothing). -/
def framesAt (fs : FS) (path : String) : List String :=
  match fs with
  | [] => []
  | (q, fr) :: rest => if q = path then fr else framesAt rest path

/-- Whether a target path has been created. -/
def fileExists (fs : FS) (path : String) : Bool :=
  match fs with
  | [] => false
  | (q, _) :: rest => if q = path then true else fileExists rest path

/-- Model of open_append_file: opening a target for append creates it when
absent and keeps its prior content when present. -/
def ensureFile (path : String) (fs : FS) : FS :=
  match fs with
  | [] => [(path, [])]
  | (q, fr) :: rest =>
    if q = path then (q, fr) :: rest else (q, fr) :: ensureFile path rest

/-- Model of dump_line: append one complete compressed frame, whose content
is the raw line followed by a newline, to the target path. -/
def dump_line (fs : FS) (path line : String) : FS :=
  match fs with
  | [] => [(path, [line ++ "\n"])]
  | (q, fr) :: rest =>
    if q = path then (q, fr ++ [line ++ "\n"]) :: rest
    else (q, fr) :: dump_line rest path line

/-- Observable events of a run, in emission order: status-channel messages
(progress, per-line error reports, the final summary), the two kinds of
target appends, and registry evictions. -/
inductive Event where
  | progress (d : NaiveDate) (count : Nat) (elapsed : Nat) : Event
  | reportErr (lineIdx : Nat) (line : String) : Event
  | shardWrite (d : NaiveDate) (line : String) : Event
  | errorWrite (line : String) : Event
  | evict (d : NaiveDate) : Event
  | summary (count : Nat) (elapsed : Nat) : Event
deriving DecidableEq, Repr

/-- Whether an event is an append to a target. -/
def Event.isWrite : Event → Bool
  | .shardWrite _ _ => true
  | .errorWrite _ => true
  | _ => false

/-- Number of evictions of a given date key in an event list. -/
def countEvict (d : NaiveDate) : List Event → Nat
  | [] => 0
  | e :: rest => (if e = .evict d then 1 else 0) + countEvict d rest

/-- The running state of process_log_file: the filesystem, the keys of the
open handle map, the two counters, the last seen date, the read clock (one
tick per line read, standing in for real time), the per-date timer origin,
the emitted events, and two flags: aborted (an early Err return) and
stopped (the line iterator yielded a read error, ending the loop). -/
structure St where
  files : FS
  handlers : List NaiveDate
  line_count : Nat
  entry_count : Nat
  last_line_date : Option NaiveDate
  clock : Nat
  log_start : Nat
  events : List Event
  aborted : Bool
  stopped : Bool
deriving DecidableEq, Repr

/-- Append one event. -/
def addEvent (e : Event) (st : St) : St := { st with events := st.events ++ [e] }

/-- Date-boundary handling (main.rs lines 152-159): when a previous date is
set and differs from the new date, emit the progress message for the
previous date with its record count and elapsed time, reset the per-date
timer and counter, and evict the previous date's handle. -/
def boundaryPhase (d : NaiveDate) (st : St) : St :=
  match st.last_line_date with
  | none => st
  | some prev =>
    if prev ≠ d then
      { st with
        events := st.events ++
          [.progress prev st.entry_count (st.clock - st.log_start), .evict prev],
        log_start := st.clock,
        entry_count := 0,
        handlers := st.handlers.erase prev }
    else st

/-- Handle lookup (main.rs lines 160-165): reuse the open handle for the
date, or open the shard target in append mode (creating it if absent) and
record the new handle. -/
def ensureHandler (out : String) (d : NaiveDate) (st : St) : St :=
  if d ∈ st.handlers then st
  else { st with
          handlers := d :: st.handlers,
          files := ensureFile (shardPath out d) st.files }

/-- Shard append with failure handling (main.rs lines 166-169): on success
append the line's frame to the shard target; on an injected write failure
report the error and divert the raw line to the error target, which aborts
the run if that second append also fails. -/
def writePhase (out : String) (sfail efail : Bool) (line : String)
    (d : NaiveDate) (st : St) : St :=
  if sfail then
    let st := addEvent (.reportErr st.line_count line) st
    if efail then { st with aborted := true }
    else addEvent (.errorWrite line)
           { st with files := dump_line st.files (errorPath out) line }
  else
    addEvent (.shardWrite d line)
      { st with files := dump_line st.files (shardPath out d) line }

/-- Counter updates after a routed line (main.rs lines 170-172). -/
def countPhase (d : NaiveDate) (st : St) : St :=
  { st with
    last_line_date := some d,
    line_count := st.line_count + 1,
    entry_count := st.entry_count + 1 }

/-- One iteration of the read loop (main.rs lines 143-173).  An input item
is either a line read successfully or a read error; a read error ends the
loop (the while-let pattern), modelled by the stopped flag.  The failure
oracles are consulted at the current read clock. -/
def step (out : String) (sfail efail : Nat → Bool) (st : St)
    (item : Except Unit String) : St :=
  if st.aborted || st.stopped then st
  else
    match item with
    | .error _ => { st with stopped := true }
    | .ok line =>
      let k := st.clock + 1
      let st := { st with clock := k }
      match parse_date line with
      | .error _ =>
        let st := addEvent (.reportErr st.line_count line) st
        if efail k then { st with aborted := true }
        else addEvent (.errorWrite line)
               { st with files := dump_line st.files (errorPath out) line }
      | .ok ts =>
        let st := ensureHandler out ts.date (boundaryPhase ts.date st)
        let st := writePhase out (sfail k) (efail k) line ts.date st
        if st.aborted then st else countPhase ts.date st

/-- State at the top of process_log_file (main.rs lines 123-142): the error
target opened eagerly in append mode over the initial filesystem, empty
registry, zeroed counters and timers. -/
def initSt (out : String) (files0 : FS) : St :=
  { files := ensureFile (errorPath out) files0,
    handlers := [], line_count := 0, entry_count := 0,
    last_line_date := none, clock := 0, log_start := 0,
    events := [], aborted := false, stopped := false }

/-- Model of process_log_file: fold the per-line step over the input items,
then, unless the run aborted, print the final summary with the line count
and total elapsed time. -/
def process_log_file (out : String) (sfail efail : Nat → Bool)
    (items : List (Except Unit String)) (files0 : FS) : St :=
  let st := items.foldl (step out sfail efail) (initSt out files0)
  if st.aborted then st else addEvent (.summary st.line_count st.clock) st

/-- Whether the first list is a leading segment of the second. -/
def leadsList : List Char → List Char → Bool
  | [], _ => true
  | _ :: _, [] => false
  | p :: ps, c :: cs => p = c && leadsList ps cs

/-- Fuel-bounded core of pattern replacement over character lists: replace
each leftmost non-overlapping occurrence of pat by rep. -/
def replaceFuel : Nat → List Char → List Char → List Char → List Char
  | 0, s, _, _ => s
  | fuel + 1, s, pat, rep =>
    match s with
    | [] => []
    | c :: cs =>
      if leadsList pat (c :: cs) then
        rep ++ replaceFuel fuel (List.drop pat.length (c :: cs)) pat rep
      else c :: replaceFuel fuel cs pat rep

/-- Model of Rust's str::replace: replace every non-overlapping occurrence
of the pattern, scanning left to right. -/
def strReplace (s pattern replacement : String) : String :=
  if pattern.data.length = 0 then s
  else ⟨replaceFuel (s.data.length + 1) s.data pattern.data replacement.data⟩

/-- The passthrough echo loop of main (main.rs lines 24-29): print each
successfully read line, stopping silently at the first read error. -/
def echoLines : List (Except Unit String) → List String
  | [] => []
  | .error _ :: _ => []
  | .ok l :: rest => l :: echoLines rest

/-- Result of a whole process run: passthrough stdout, final filesystem, and
whether the process exited successfully. -/
structure MainResult where
  stdout : List String
  files : FS
  exitOk : Bool
deriving DecidableEq, Repr

/-- Model of main (main.rs lines 20-40): dispatch on the output argument --
passthrough for "-", default output path for "" (the input path with any
".json.1" fragment removed), explicit output path otherwise -- and then the
unconditional second process_log_file call of line 38, which reprocesses the
input with the raw output argument as the target path.  The two engine runs
share the filesystem; each run re-reads the same input items. -/
def mainRun (input output : String) (items : List (Except Unit String))
    (sf1 ef1 sf2 ef2 : Nat → Bool) : MainResult :=
  if output = "-" then
    let r := process_log_file "-" sf2 ef2 items []
    ⟨echoLines items, r.files, !r.aborted⟩
  else if output = "" then
    let r1 := process_log_file (strReplace input ".json.1" "") sf1 ef1 items []
    if r1.aborted then ⟨[], r1.files, false⟩
    else
      let r2 := process_log_file "" sf2 ef2 items r1.files
      ⟨[], r2.files, !r2.aborted⟩
  else
    let r1 := process_log_file output sf1 ef1 items []
    if r1.aborted then ⟨[], r1.files, false⟩
    else
      let r2 := process_log_file output sf2 ef2 items r1.files
      ⟨[], r2.files, !r2.aborted⟩

/-- Input items for a stream whose reads all succeed. -/
def okItems (lines : List String) : List (Except Unit String) := lines.map .ok

/-- The single write event the engine performs for a line read at clock k:
a decodable line goes to its date's shard target unless the shard append
fails, and to the error target otherwise. -/
def routeEvent (sfail : Nat → Bool) (k : Nat) (line : String) : Event :=
  match parse_date line with
  | .ok ts => if sfail k then .errorWrite line else .shardWrite ts.date line
  | .error _ => .errorWrite line


/-- The expected write events for a list of lines whose first line is read at
clock k0 + 1: exactly one write event per input line. -/
def routeEvents (sfail : Nat → Bool) (k0 : Nat) : List String → List Event
  | [] => []
  | l :: ls => routeEvent sfail (k0 + 1) l :: routeEvents sfail (k0 + 1) ls


/-! ### Path lemmas -/

theorem digitChar_inj (a b : Nat) (ha : a ≤ 9) (hb : b ≤ 9)
    (h : digitChar a = digitChar b) : a = b := by
  revert h
  interval_cases a <;> interval_cases b <;> decide

theorem daysInMonth_le (y m : Nat) : daysInMonth y m ≤ 31 := by
  unfold daysInMonth
  split
  · split <;> omega
  · split <;> omega

theorem parse_from_str_inRange (s : String) (ts : NaiveDateTime)
    (h : parse_from_str s = some ts) : InRange ts.date := by
  unfold parse_from_str at h
  split at h
  case h_2 => simp at h
  case h_1 y1 y2 y3 y4 m1 m2 d1 d2 h1c h2c mi1 mi2 s1 s2 frac heq =>
    split at h
    case isFalse => simp at h
    case isTrue hdig =>
      simp only [Bool.and_eq_true, decide_eq_true_eq] at hdig
      simp only [] at h
      split at h
      case isFalse => simp at h
      case isTrue hrange =>
        simp only [Bool.and_eq_true, decide_eq_true_eq] at hrange
        simp only [Option.some.injEq] at h
        subst h
        have hd31 := daysInMonth_le
          (digitVal y1 * 1000 + digitVal y2 * 100 + digitVal y3 * 10 + digitVal y4)
          (digitVal m1 * 10 + digitVal m2)
        simp only [isDig, Bool.and_eq_true, decide_eq_true_eq] at hdig
        refine ⟨?_, ?_, ?_⟩ <;> simp only [InRange, digitVal] <;> omega

theorem parse_date_inRange (line : String) (ts : NaiveDateTime)
    (h : parse_date line = .ok ts) : InRange ts.date := by
  unfold parse_date at h
  split at h
  · simp at h
  · split at h
    · simp at h
    · split at h
      · split at h
        · simp only [Except.ok.injEq] at h
          subst h
          exact parse_from_str_inRange _ _ (by assumption)
        · simp at h
      · simp at h

theorem pad2c_inj (a b : Nat) (ha : a < 100) (hb : b < 100)
    (h : pad2c a = pad2c b) : a = b := by
  simp only [pad2c, List.cons.injEq, and_true] at h
  obtain ⟨e1, e2⟩ := h
  have g1 := digitChar_inj _ _ (by omega) (by omega) e1
  have g2 := digitChar_inj _ _ (by omega) (by omega) e2
  omega

theorem pad4c_inj (a b : Nat) (ha : a < 10000) (hb : b < 10000)
    (h : pad4c a = pad4c b) : a = b := by
  simp only [pad4c, List.cons.injEq, and_true] at h
  obtain ⟨e1, e2, e3, e4⟩ := h
  have g1 := digitChar_inj _ _ (by omega) (by omega) e1
  have g2 := digitChar_inj _ _ (by omega) (by omega) e2
  have g3 := digitChar_inj _ _ (by omega) (by omega) e3
  have g4 := digitChar_inj _ _ (by omega) (by omega) e4
  omega

theorem format_inj (d1 d2 : NaiveDate) (h1 : InRange d1) (h2 : InRange d2)
    (h : d1.format = d2.format) : d1 = d2 := by
  obtain ⟨y1, m1, a1⟩ := d1
  obtain ⟨y2, m2, a2⟩ := d2
  obtain ⟨hy1, hm1, ha1⟩ := h1
  obtain ⟨hy2, hm2, ha2⟩ := h2
  have b1 : y1 < 10000 := hy1
  have b2 : m1 < 100 := hm1
  have b3 : a1 < 100 := ha1
  have b4 : y2 < 10000 := hy2
  have b5 : m2 < 100 := hm2
  have b6 : a2 < 100 := ha2
  have hd : (NaiveDate.format ⟨y1, m1, a1⟩).data = (NaiveDate.format ⟨y2, m2, a2⟩).data := by
    rw [h]
  simp only [NaiveDate.format, pad4c, pad2c, List.cons_append, List.nil_append,
    List.cons.injEq, and_true] at hd
  obtain ⟨e1, e2, e3, e4, -, e5, e6, -, e7, e8⟩ := hd
  have g1 := digitChar_inj _ _ (by omega) (by omega) e1
  have g2 := digitChar_inj _ _ (by omega) (by omega) e2
  have g3 := digitChar_inj _ _ (by omega) (by omega) e3
  have g4 := digitChar_inj _ _ (by omega) (by omega) e4
  have g5 := digitChar_inj _ _ (by omega) (by omega) e5
  have g6 := digitChar_inj _ _ (by omega) (by omega) e6
  have g7 := digitChar_inj _ _ (by omega) (by omega) e7
  have g8 := digitChar_inj _ _ (by omega) (by omega) e8
  simp only [NaiveDate.mk.injEq]
  omega

theorem shardPath_inj (out : String) (d1 d2 : NaiveDate)
    (h1 : InRange d1) (h2 : InRange d2)
    (h : shardPath out d1 = shardPath out d2) : d1 = d2 := by
  apply format_inj d1 d2 h1 h2
  unfold shardPath at h
  have hd := congrArg String.data h
  simp only [String.data_append, List.append_assoc] at hd
  have hd2 := List.append_cancel_left hd
  have hd3 := List.append_cancel_left hd2
  have hd4 := List.append_cancel_right hd3
  have : d1.format.data = d2.format.data := hd4
  cases hf1 : d1.format
  cases hf2 : d2.format
  simp_all

theorem format_length (d : NaiveDate) : d.format.length = 10 := by
  simp [NaiveDate.format, pad4c, pad2c, String.length]

theorem errorPath_ne_shardPath (out1 out2 : String) (d : NaiveDate)
    (h : out1 = out2) : errorPath out1 ≠ shardPath out2 d := by
  intro hc
  have hl := congrArg String.length hc
  simp only [errorPath, shardPath, String.length_append, format_length, h] at hl
  have h9 : ".error.gz".length = 9 := rfl
  have h1 : ".".length = 1 := rfl
  have hj : ".jsonl.gz".length = 9 := rfl
  omega

/-! ### Filesystem lemmas -/

theorem framesAt_ensureFile (path q : String) (fs : FS) :
    framesAt (ensureFile path fs) q = framesAt fs q := by
  induction fs with
  | nil =>
    simp only [ensureFile, framesAt]
    split <;> simp_all [framesAt]
  | cons hd tl ih =>
    obtain ⟨p, fr⟩ := hd
    simp only [ensureFile]
    split
    · rfl
    · simp only [framesAt]
      split
      · rfl
      · exact ih

theorem framesAt_dump_line_same (fs : FS) (path line : String) :
    framesAt (dump_line fs path line) path = framesAt fs path ++ [line ++ "\n"] := by
  induction fs with
  | nil => simp [dump_line, framesAt]
  | cons hd tl ih =>
    obtain ⟨p, fr⟩ := hd
    simp only [dump_line]
    split
    · simp_all [framesAt]
    · simp only [framesAt]
      split
      · simp_all
      · exact ih

theorem framesAt_dump_line_other (fs : FS) (path q line : String) (h : q ≠ path) :
    framesAt (dump_line fs path line) q = framesAt fs q := by
  induction fs with
  | nil =>
    simp only [dump_line, framesAt]
    split
    · simp_all
    · rfl
  | cons hd tl ih =>
    obtain ⟨p, fr⟩ := hd
    simp only [dump_line]
    split
    · simp only [framesAt]
      split
      · simp_all
      · rfl
    · simp only [framesAt]
      split
      · rfl
      · exact ih

theorem fileExists_dump_line_other (fs : FS) (path q line : String) (h : q ≠ path) :
    fileExists (dump_line fs path line) q = fileExists fs q := by
  induction fs with
  | nil =>
    simp only [dump_line, fileExists]
    split
    · simp_all
    · rfl
  | cons hd tl ih =>
    obtain ⟨p, fr⟩ := hd
    simp only [dump_line]
    split
    · simp only [fileExists]
    · simp only [fileExists]
      split
      · rfl
      · exact ih

theorem fileExists_ensureFile_other (fs : FS) (path q : String) (h : q ≠ path) :
    fileExists (ensureFile path fs) q = fileExists fs q := by
  induction fs with
  | nil =>
    simp only [ensureFile, fileExists]
    split
    · simp_all
    · rfl
  | cons hd tl ih =>
    obtain ⟨p, fr⟩ := hd
    simp only [ensureFile]
    split
    · rfl
    · simp only [fileExists]
      split
      · rfl
      · exact ih

/-! ### Step shape lemmas -/

theorem step_halted (out : String) (sf ef : Nat → Bool) (st : St)
    (item : Except Unit String) (h : st.aborted = true ∨ st.stopped = true) :
    step out sf ef st item = st := by
  unfold step
  rcases h with h | h <;> simp [h]

theorem foldl_halted (out : String) (sf ef : Nat → Bool) (st : St)
    (items : List (Except Unit String)) (h : st.aborted = true ∨ st.stopped = true) :
    items.foldl (step out sf ef) st = st := by
  induction items with
  | nil => rfl
  | cons i rest ih => simp only [List.foldl_cons, step_halted out sf ef st i h, ih]

theorem step_readErr (out : String) (sf ef : Nat → Bool) (st : St) (e : Unit)
    (ha : st.aborted = false) (hs : st.stopped = false) :
    step out sf ef st (.error e) = { st with stopped := true } := by
  unfold step
  simp [ha, hs]

theorem step_decodeErr (out : String) (sf ef : Nat → Bool) (st : St) (line : String)
    (ha : st.aborted = false) (hs : st.stopped = false)
    (hp : parse_date line = .error ()) (hef : ef (st.clock + 1) = false) :
    step out sf ef st (.ok line) =
      { st with
        clock := st.clock + 1,
        events := st.events ++ [.reportErr st.line_count line, .errorWrite line],
        files := dump_line st.files (errorPath out) line } := by
  obtain ⟨f, hns, lc, ec, lld, ck, ls, ev, ab, sp⟩ := st
  simp only at ha hs hef
  unfold step
  simp [ha, hs, hp, hef, addEvent]

theorem step_decodeErr_abort (out : String) (sf ef : Nat → Bool) (st : St) (line : String)
    (ha : st.aborted = false) (hs : st.stopped = false)
    (hp : parse_date line = .error ()) (hef : ef (st.clock + 1) = true) :
    step out sf ef st (.ok line) =
      { st with
        clock := st.clock + 1,
        events := st.events ++ [.reportErr st.line_count line],
        aborted := true } := by
  obtain ⟨f, hns, lc, ec, lld, ck, ls, ev, ab, sp⟩ := st
  simp only at ha hs hef
  unfold step
  simp [ha, hs, hp, hef, addEvent]

theorem step_decoded (out : String) (sf ef : Nat → Bool) (st : St)
    (line : String) (ts : NaiveDateTime)
    (ha : st.aborted = false) (hs : st.stopped = false)
    (hp : parse_date line = .ok ts) :
    step out sf ef st (.ok line) =
      (let st3 := writePhase out (sf (st.clock + 1)) (ef (st.clock + 1)) line ts.date
        (ensureHandler out ts.date (boundaryPhase ts.date { st with clock := st.clock + 1 }));
       if st3.aborted then st3 else countPhase ts.date st3) := by
  unfold step
  simp [ha, hs, hp]

theorem boundaryPhase_basic (d : NaiveDate) (st : St) :
    (boundaryPhase d st).aborted = st.aborted ∧
    (boundaryPhase d st).stopped = st.stopped ∧
    (boundaryPhase d st).clock = st.clock ∧
    (boundaryPhase d st).line_count = st.line_count ∧
    (boundaryPhase d st).files = st.files ∧
    (boundaryPhase d st).last_line_date = st.last_line_date ∧
    (boundaryPhase d st).events.filter Event.isWrite
      = st.events.filter Event.isWrite := by
  unfold boundaryPhase
  cases h : st.last_line_date with
  | none => simp [h]
  | some prev =>
    simp only [h]
    split
    · simp [Event.isWrite, List.filter_append, h]
    · simp [h]

theorem ensureHandler_basic (out : String) (d : NaiveDate) (st : St) :
    (ensureHandler out d st).aborted = st.aborted ∧
    (ensureHandler out d st).stopped = st.stopped ∧
    (ensureHandler out d st).clock = st.clock ∧
    (ensureHandler out d st).line_count = st.line_count ∧
    (ensureHandler out d st).last_line_date = st.last_line_date ∧
    (ensureHandler out d st).events = st.events ∧
    (∀ q, framesAt (ensureHandler out d st).files q = framesAt st.files q) := by
  unfold ensureHandler
  split
  · simp
  · simp [framesAt_ensureFile]

theorem writePhase_ok (out : String) (sfail : Bool) (line : String)
    (d : NaiveDate) (st : St) :
    writePhase out sfail false line d st =
      { st with
        events := st.events ++
          (if sfail then [.reportErr st.line_count line, .errorWrite line]
           else [.shardWrite d line]),
        files := if sfail then dump_line st.files (errorPath out) line
                 else dump_line st.files (shardPath out d) line } := by
  obtain ⟨f, hns, lc, ec, lld, ck, ls, ev, ab, sp⟩ := st
  unfold writePhase
  cases sfail <;> simp [addEvent]

theorem writePhase_abort (out : String) (line : String) (d : NaiveDate) (st : St) :
    writePhase out true true line d st =
      { st with
        events := st.events ++ [.reportErr st.line_count line],
        aborted := true } := by
  obtain ⟨f, hns, lc, ec, lld, ck, ls, ev, ab, sp⟩ := st
  unfold writePhase
  simp [addEvent]

theorem countPhase_basic (d : NaiveDate) (st : St) :
    (countPhase d st).aborted = st.aborted ∧
    (countPhase d st).stopped = st.stopped ∧
    (countPhase d st).clock = st.clock ∧
    (countPhase d st).events = st.events ∧
    (countPhase d st).files = st.files ∧
    (countPhase d st).last_line_date = some d ∧
    (countPhase d st).line_count = st.line_count + 1 := by
  unfold countPhase
  simp

theorem step_ok_basic (out : String) (sf ef : Nat → Bool) (st : St) (line : String)
    (ha : st.aborted = false) (hs : st.stopped = false)
    (hef : ef (st.clock + 1) = false) :
    (step out sf ef st (.ok line)).aborted = false ∧
    (step out sf ef st (.ok line)).stopped = false ∧
    (step out sf ef st (.ok line)).clock = st.clock + 1 ∧
    (step out sf ef st (.ok line)).line_count
      = st.line_count + (if (parse_date line).isOk then 1 else 0) ∧
    (step out sf ef st (.ok line)).events.filter Event.isWrite
      = st.events.filter Event.isWrite ++ [routeEvent sf (st.clock + 1) line] := by
  obtain ⟨f, hns, lc, ec, lld, ck, ls, ev, ab, sp⟩ := st
  simp only at ha hs hef ⊢
  subst ha hs
  unfold step
  cases hp : parse_date line with
  | error e =>
    simp [hp, hef, routeEvent, Event.isWrite, List.filter_append, Except.isOk, Except.toBool, addEvent]
  | ok ts =>
    simp only [hp]
    unfold boundaryPhase
    rcases lld with _ | prev
    · simp only []
      unfold ensureHandler writePhase countPhase addEvent
      by_cases hmem : ts.date ∈ hns <;>
        cases hsf : sf (ck + 1) <;>
          simp [hmem, hsf, hef, routeEvent, hp, Event.isWrite, List.filter_append,
            Except.isOk, Except.toBool]
    · simp only []
      by_cases hpd : prev = ts.date
      · unfold ensureHandler writePhase countPhase addEvent
        by_cases hmem : ts.date ∈ hns <;>
          cases hsf : sf (ck + 1) <;>
            simp [hpd, hmem, hsf, hef, routeEvent, hp, Event.isWrite, List.filter_append,
              Except.isOk, Except.toBool]
      · unfold ensureHandler writePhase countPhase addEvent
        by_cases hmem : ts.date ∈ hns.erase prev <;>
          cases hsf : sf (ck + 1) <;>
            simp [hpd, hmem, hsf, hef, routeEvent, hp, Event.isWrite, List.filter_append,
              Except.isOk, Except.toBool]

theorem run_basic (out : String) (sf ef : Nat → Bool) (lines : List String)
    (hef : ∀ k, ef k = false) :
    ∀ st : St, st.aborted = false → st.stopped = false →
      (((okItems lines).foldl (step out sf ef) st).aborted = false ∧
       ((okItems lines).foldl (step out sf ef) st).stopped = false ∧
       ((okItems lines).foldl (step out sf ef) st).clock = st.clock + lines.length ∧
       ((okItems lines).foldl (step out sf ef) st).line_count
         = st.line_count + (lines.filter (fun l => (parse_date l).isOk)).length ∧
       ((okItems lines).foldl (step out sf ef) st).events.filter Event.isWrite
         = st.events.filter Event.isWrite ++ routeEvents sf st.clock lines) := by
  induction lines with
  | nil =>
    intro st ha hs
    simp [okItems, routeEvents, ha, hs]
  | cons l ls ih =>
    intro st ha hs
    simp only [okItems, List.map_cons, List.foldl_cons]
    obtain ⟨a1, a2, a3, a4, a5⟩ := step_ok_basic out sf ef st l ha hs (hef _)
    obtain ⟨b1, b2, b3, b4, b5⟩ := ih (step out sf ef st (.ok l)) a1 a2
    simp only [okItems] at b1 b2 b3 b4 b5
    refine ⟨b1, b2, ?_, ?_, ?_⟩
    · rw [b3, a3]
      simp only [List.length_cons]
      omega
    · rw [b4, a4]
      simp only [List.filter_cons]
      by_cases hok : (parse_date l).isOk <;> simp [hok] <;> omega
    · rw [b5, a5, a3]
      simp only [routeEvents, List.append_assoc, List.cons_append, List.nil_append]

theorem framesAt_dump_after_ensure (fs : FS) (p line q : String) :
    framesAt (dump_line (ensureFile p fs) p line) q
      = framesAt (dump_line fs p line) q := by
  by_cases hq : q = p
  · subst hq
    rw [framesAt_dump_line_same, framesAt_dump_line_same, framesAt_ensureFile]
  · rw [framesAt_dump_line_other _ _ _ _ hq, framesAt_dump_line_other _ _ _ _ hq,
      framesAt_ensureFile]

theorem step_decoded_framesAt (out : String) (sf ef : Nat → Bool) (st : St)
    (line : String) (ts : NaiveDateTime) (q : String)
    (ha : st.aborted = false) (hs : st.stopped = false)
    (hp : parse_date line = .ok ts)
    (hsf : sf (st.clock + 1) = false) (hef : ef (st.clock + 1) = false) :
    framesAt (step out sf ef st (.ok line)).files q
      = framesAt (dump_line st.files (shardPath out ts.date) line) q := by
  obtain ⟨f, hns, lc, ec, lld, ck, ls, ev, ab, sp⟩ := st
  simp only at ha hs hsf hef ⊢
  subst ha hs
  unfold step
  simp only [hp]
  unfold boundaryPhase
  rcases lld with _ | prev
  · simp only []
    unfold ensureHandler writePhase countPhase addEvent
    by_cases hmem : ts.date ∈ hns <;>
      simp [hmem, hsf, hef, framesAt_dump_after_ensure]
  · simp only []
    by_cases hpd : prev = ts.date
    · unfold ensureHandler writePhase countPhase addEvent
      by_cases hmem : ts.date ∈ hns <;>
        simp [hpd, hmem, hsf, hef, framesAt_dump_after_ensure]
    · unfold ensureHandler writePhase countPhase addEvent
      by_cases hmem : ts.date ∈ hns.erase prev <;>
        simp [hpd, hmem, hsf, hef, framesAt_dump_after_ensure]

theorem step_frames_shard (out : String) (sf ef : Nat → Bool) (st : St) (line : String)
    (D : NaiveDate) (hD : InRange D)
    (ha : st.aborted = false) (hs : st.stopped = false)
    (hsf : sf (st.clock + 1) = false) (hef : ef (st.clock + 1) = false) :
    framesAt (step out sf ef st (.ok line)).files (shardPath out D)
      = framesAt st.files (shardPath out D) ++
        (if dateOf line = some D then [line ++ "\n"] else []) := by
  cases hp : parse_date line with
  | error e =>
    cases e
    rw [step_decodeErr out sf ef st line ha hs hp hef]
    have hne : shardPath out D ≠ errorPath out :=
      fun h => errorPath_ne_shardPath out out D rfl h.symm
    simp [framesAt_dump_line_other _ _ _ _ hne, dateOf, hp]
  | ok ts =>
    have hts : InRange ts.date := parse_date_inRange line ts hp
    rw [step_decoded_framesAt out sf ef st line ts (shardPath out D) ha hs hp hsf hef]
    by_cases hdd : ts.date = D
    · subst hdd
      rw [framesAt_dump_line_same]
      simp [dateOf, hp]
    · have hne : shardPath out D ≠ shardPath out ts.date := by
        intro h
        exact hdd (shardPath_inj out ts.date D hts hD h.symm)
      rw [framesAt_dump_line_other _ _ _ _ hne]
      simp [dateOf, hp, hdd]

theorem run_frames (out : String) (sf ef : Nat → Bool) (lines : List String)
    (D : NaiveDate) (hD : InRange D)
    (hsf : ∀ k, sf k = false) (hef : ∀ k, ef k = false) :
    ∀ st : St, st.aborted = false → st.stopped = false →
      framesAt (((okItems lines).foldl (step out sf ef) st).files) (shardPath out D)
        = framesAt st.files (shardPath out D) ++
          ((lines.filter (fun l => dateOf l = some D)).map (fun l => l ++ "\n")) := by
  induction lines with
  | nil =>
    intro st ha hs
    simp [okItems]
  | cons l ls ih =>
    intro st ha hs
    simp only [okItems, List.map_cons, List.foldl_cons]
    obtain ⟨a1, a2, a3, a4, a5⟩ := step_ok_basic out sf ef st l ha hs (hef _)
    have hrec := ih (step out sf ef st (.ok l)) a1 a2
    simp only [okItems] at hrec
    rw [hrec, step_frames_shard out sf ef st l D hD ha hs (hsf _) (hef _)]
    simp only [List.filter_cons]
    by_cases hdl : dateOf l = some D <;> simp [hdl]

/-! ### Date order and sortedness lemmas -/

theorem dLe_trans (a b c : NaiveDate) (h1 : dLe a b) (h2 : dLe b c) : dLe a c := by
  obtain ⟨y1, m1, d1⟩ := a
  obtain ⟨y2, m2, d2⟩ := b
  obtain ⟨y3, m3, d3⟩ := c
  simp only [dLe] at h1 h2 ⊢
  omega

theorem dLt_of_dLe_ne (a b : NaiveDate) (h1 : dLe a b) (h2 : a ≠ b) : dLt a b := by
  obtain ⟨y1, m1, d1⟩ := a
  obtain ⟨y2, m2, d2⟩ := b
  have h3 : ¬(y1 = y2 ∧ m1 = m2 ∧ d1 = d2) := by
    intro hc
    exact h2 (by simp only [NaiveDate.mk.injEq]; exact hc)
  simp only [dLe] at h1
  simp only [dLt]
  omega

theorem dLt_of_dLt_of_dLe (a b c : NaiveDate) (h1 : dLt a b) (h2 : dLe b c) :
    dLt a c := by
  obtain ⟨y1, m1, d1⟩ := a
  obtain ⟨y2, m2, d2⟩ := b
  obtain ⟨y3, m3, d3⟩ := c
  simp only [dLe, dLt] at h1 h2 ⊢
  omega

theorem dLt_irrefl (a : NaiveDate) : ¬ dLt a a := by
  obtain ⟨y, m, d⟩ := a
  intro h
  simp only [dLt] at h
  omega

theorem sortedByDate_tail (a : NaiveDate) (ds : List NaiveDate)
    (h : sortedByDate (a :: ds) = true) : sortedByDate ds = true := by
  cases ds with
  | nil => rfl
  | cons b rest =>
    simp only [sortedByDate, Bool.and_eq_true] at h
    exact h.2

theorem sortedByDate_head_le (a : NaiveDate) (ds : List NaiveDate)
    (h : sortedByDate (a :: ds) = true) : ∀ d ∈ ds, dLe a d := by
  induction ds generalizing a with
  | nil => intro d hd; cases hd
  | cons b rest ih =>
    intro d hd
    simp only [sortedByDate, Bool.and_eq_true, decide_eq_true_eq] at h
    rcases List.mem_cons.mp hd with hd | hd
    · exact hd ▸ h.1
    · exact dLe_trans a b d h.1 (ih b h.2 d hd)

/-! ### Eviction counting lemmas -/

theorem countEvict_append (d : NaiveDate) (l1 l2 : List Event) :
    countEvict d (l1 ++ l2) = countEvict d l1 + countEvict d l2 := by
  induction l1 with
  | nil => simp [countEvict]
  | cons e rest ih =>
    simp only [List.cons_append, countEvict, List.append_eq, ih]
    omega

theorem step_countEvict (out : String) (sf ef : Nat → Bool) (st : St) (line : String)
    (ha : st.aborted = false) (hs : st.stopped = false) (d : NaiveDate) :
    countEvict d (step out sf ef st (.ok line)).events
      = countEvict d st.events +
        (match parse_date line, st.last_line_date with
         | .ok ts, some prev => if prev ≠ ts.date ∧ prev = d then 1 else 0
         | _, _ => 0) := by
  obtain ⟨f, hns, lc, ec, lld, ck, ls, ev, ab, sp⟩ := st
  simp only at ha hs ⊢
  subst ha hs
  unfold step
  cases hp : parse_date line with
  | error e =>
    simp only [hp]
    cases hef : ef (ck + 1) <;>
      simp [addEvent, countEvict_append, countEvict]
  | ok ts =>
    simp only [hp]
    unfold boundaryPhase ensureHandler writePhase countPhase addEvent
    rcases lld with _ | prev
    · simp only []
      by_cases hmem : ts.date ∈ hns <;>
        cases hsf : sf (ck + 1) <;>
          cases hef : ef (ck + 1) <;>
            simp_all [countEvict_append, countEvict]
    · simp only []
      by_cases hpd : prev = ts.date
      · by_cases hmem : ts.date ∈ hns <;>
          cases hsf : sf (ck + 1) <;>
            cases hef : ef (ck + 1) <;>
              simp_all [countEvict_append, countEvict]
      · by_cases hmem : ts.date ∈ hns.erase prev <;>
          cases hsf : sf (ck + 1) <;>
            cases hef : ef (ck + 1) <;>
              simp_all [countEvict_append, countEvict]

theorem step_last_decodeFail (out : String) (sf ef : Nat → Bool) (st : St)
    (line : String) (e : Unit)
    (ha : st.aborted = false) (hs : st.stopped = false)
    (hp : parse_date line = .error e) :
    (step out sf ef st (.ok line)).last_line_date = st.last_line_date := by
  cases e
  cases hef : ef (st.clock + 1)
  · rw [step_decodeErr out sf ef st line ha hs hp hef]
  · rw [step_decodeErr_abort out sf ef st line ha hs hp hef]

theorem step_abort_or_last (out : String) (sf ef : Nat → Bool) (st : St)
    (line : String) (ts : NaiveDateTime)
    (ha : st.aborted = false) (hs : st.stopped = false)
    (hp : parse_date line = .ok ts) :
    (step out sf ef st (.ok line)).aborted = true ∨
      ((step out sf ef st (.ok line)).aborted = false ∧
       (step out sf ef st (.ok line)).stopped = false ∧
       (step out sf ef st (.ok line)).last_line_date = some ts.date) := by
  obtain ⟨f, hns, lc, ec, lld, ck, ls, ev, ab, sp⟩ := st
  simp only at ha hs ⊢
  subst ha hs
  unfold step
  simp only [hp]
  unfold boundaryPhase ensureHandler writePhase countPhase addEvent
  rcases lld with _ | prev
  · simp only []
    by_cases hmem : ts.date ∈ hns <;>
      cases hsf : sf (ck + 1) <;>
        cases hef : ef (ck + 1) <;>
          simp_all
  · simp only []
    by_cases hpd : prev = ts.date
    · by_cases hmem : ts.date ∈ hns <;>
        cases hsf : sf (ck + 1) <;>
          cases hef : ef (ck + 1) <;>
            simp_all
    · by_cases hmem : ts.date ∈ hns.erase prev <;>
        cases hsf : sf (ck + 1) <;>
          cases hef : ef (ck + 1) <;>
            simp_all

theorem step_handlers_inv (out : String) (sf ef : Nat → Bool) (st : St)
    (item : Except Unit String)
    (h : st.aborted = false → st.handlers = st.last_line_date.toList)
    (hlen : st.handlers.length ≤ 1) :
    ((step out sf ef st item).aborted = false →
      (step out sf ef st item).handlers
        = (step out sf ef st item).last_line_date.toList) ∧
    (step out sf ef st item).handlers.length ≤ 1 := by
  by_cases hhalt : st.aborted = true ∨ st.stopped = true
  · rw [step_halted out sf ef st item hhalt]
    exact ⟨h, hlen⟩
  · simp only [not_or, Bool.not_eq_true] at hhalt
    obtain ⟨ha, hs⟩ := hhalt
    have hh := h ha
    obtain ⟨f, hns, lc, ec, lld, ck, ls, ev, ab, sp⟩ := st
    simp only at ha hs hh ⊢
    subst ha hs hh
    cases item with
    | error e =>
      rw [step_readErr out sf ef _ e rfl rfl]
      exact ⟨fun _ => rfl, hlen⟩
    | ok line =>
      unfold step
      cases hp : parse_date line with
      | error e =>
        simp only [hp]
        cases hef : ef (ck + 1) <;> simp_all [addEvent, hlen]
      | ok ts =>
        simp only [hp]
        unfold boundaryPhase ensureHandler writePhase countPhase addEvent
        rcases lld with _ | prev
        · simp only [Option.toList]
          cases hsf : sf (ck + 1) <;> cases hef : ef (ck + 1) <;>
            simp_all [Option.toList]
        · simp only [Option.toList]
          by_cases hpd : prev = ts.date <;>
            cases hsf : sf (ck + 1) <;> cases hef : ef (ck + 1) <;>
              simp_all [Option.toList, List.erase_cons_head]

theorem run_handlers_inv (out : String) (sf ef : Nat → Bool)
    (items : List (Except Unit String)) :
    ∀ st : St,
      (st.aborted = false → st.handlers = st.last_line_date.toList) →
      st.handlers.length ≤ 1 →
      (((items.foldl (step out sf ef) st).aborted = false →
        (items.foldl (step out sf ef) st).handlers
          = (items.foldl (step out sf ef) st).last_line_date.toList) ∧
       (items.foldl (step out sf ef) st).handlers.length ≤ 1) := by
  induction items with
  | nil => intro st h hl; exact ⟨h, hl⟩
  | cons i rest ih =>
    intro st h hl
    simp only [List.foldl_cons]
    obtain ⟨h1, h2⟩ := step_handlers_inv out sf ef st i h hl
    exact ih _ h1 h2

theorem run_evict_once (out : String) (sf ef : Nat → Bool) :
    ∀ (lines : List String) (st : St),
      sortedByDate (datesOf lines) = true →
      (∀ d, countEvict d st.events ≤ 1) →
      (∀ d prev, st.last_line_date = some prev →
        1 ≤ countEvict d st.events → dLt d prev) →
      (∀ prev, st.last_line_date = some prev → ∀ d ∈ datesOf lines, dLe prev d) →
      (st.last_line_date = none → ∀ d, countEvict d st.events = 0) →
      ∀ d, countEvict d ((okItems lines).foldl (step out sf ef) st).events ≤ 1 := by
  intro lines
  induction lines with
  | nil =>
    intro st hsort hc hlt hfut hnone d
    simpa [okItems] using hc d
  | cons l ls ih =>
    intro st hsort hc hlt hfut hnone d
    by_cases hhalt : st.aborted = true ∨ st.stopped = true
    · rw [foldl_halted out sf ef st _ hhalt]
      exact hc d
    · simp only [not_or, Bool.not_eq_true] at hhalt
      obtain ⟨ha, hs⟩ := hhalt
      simp only [okItems, List.map_cons, List.foldl_cons]
      have hcount := step_countEvict out sf ef st l ha hs
      cases hp : parse_date l with
      | error e =>
        have hdates : datesOf (l :: ls) = datesOf ls := by
          simp [datesOf, dateOf, hp]
        have hlast' := step_last_decodeFail out sf ef st l e ha hs hp
        have hcount' : ∀ d2, countEvict d2 (step out sf ef st (.ok l)).events
            = countEvict d2 st.events := by
          intro d2
          rw [hcount d2]
          simp [hp]
        rw [hdates] at hsort
        have hrec := ih (step out sf ef st (.ok l)) hsort
          (fun d2 => by rw [hcount' d2]; exact hc d2)
          (fun d2 prev2 hl2 hge => by
            rw [hlast'] at hl2
            rw [hcount' d2] at hge
            exact hlt d2 prev2 hl2 hge)
          (fun prev2 hl2 => by
            rw [hlast'] at hl2
            exact fun d2 hd2 => hfut prev2 hl2 d2 (by rw [hdates]; exact hd2))
          (fun hn => by
            rw [hlast'] at hn
            exact fun d2 => hcount' d2 ▸ hnone hn d2)
          d
        simpa [okItems] using hrec
      | ok ts =>
        have hdates : datesOf (l :: ls) = ts.date :: datesOf ls := by
          simp [datesOf, dateOf, hp]
        rw [hdates] at hsort
        have hsort' : sortedByDate (datesOf ls) = true := sortedByDate_tail _ _ hsort
        have hhead : ∀ d2 ∈ datesOf ls, dLe ts.date d2 :=
          sortedByDate_head_le _ _ hsort
        rcases step_abort_or_last out sf ef st l ts ha hs hp with hab' | ⟨hab', hs', hlast'⟩
        · rw [foldl_halted out sf ef _ _ (Or.inl hab')]
          rw [hcount d]
          cases hlld : st.last_line_date with
          | none => simpa [hp, hlld] using hc d
          | some prev =>
            simp only [hp, hlld]
            by_cases hcond : prev ≠ ts.date ∧ prev = d
            · obtain ⟨hne, hpd⟩ := hcond
              subst hpd
              have h0 : countEvict prev st.events = 0 := by
                by_contra hpos
                exact dLt_irrefl prev (hlt prev prev hlld (by omega))
              rw [h0]
              simp [hne]
            · simp only [hcond, if_false]
              simpa using hc d
        · cases hlld : st.last_line_date with
          | none =>
            have hzero : ∀ d2, countEvict d2 st.events = 0 := hnone hlld
            have hcnt' : ∀ d2, countEvict d2 (step out sf ef st (.ok l)).events = 0 := by
              intro d2
              rw [hcount d2]
              simp [hp, hlld, hzero]
            have hrec := ih (step out sf ef st (.ok l)) hsort'
              (fun d2 => by rw [hcnt' d2]; omega)
              (fun d2 prev2 hl2 hge => by rw [hcnt' d2] at hge; omega)
              (fun prev2 hl2 => by
                rw [hlast'] at hl2
                injection hl2 with he
                subst he
                exact hhead)
              (fun hn => by rw [hlast'] at hn; cases hn)
              d
            simpa [okItems] using hrec
          | some prev =>
            by_cases hpd : prev = ts.date
            · subst hpd
              have hcnt' : ∀ d2, countEvict d2 (step out sf ef st (.ok l)).events
                  = countEvict d2 st.events := by
                intro d2
                rw [hcount d2]
                simp [hp, hlld]
              have hrec := ih (step out sf ef st (.ok l)) hsort'
                (fun d2 => by rw [hcnt' d2]; exact hc d2)
                (fun d2 prev2 hl2 hge => by
                  rw [hlast'] at hl2
                  injection hl2 with he
                  subst he
                  rw [hcnt' d2] at hge
                  exact hlt d2 ts.date hlld hge)
                (fun prev2 hl2 => by
                  rw [hlast'] at hl2
                  injection hl2 with he
                  subst he
                  exact hhead)
                (fun hn => by rw [hlast'] at hn; cases hn)
                d
              simpa [okItems] using hrec
            · have hprevle : dLe prev ts.date :=
                hfut prev hlld ts.date (by rw [hdates]; exact List.mem_cons_self _ _)
              have hprevlt : dLt prev ts.date := dLt_of_dLe_ne _ _ hprevle hpd
              have hcnt' : ∀ d2, countEvict d2 (step out sf ef st (.ok l)).events
                  = countEvict d2 st.events + (if prev = d2 then 1 else 0) := by
                intro d2
                rw [hcount d2]
                simp [hp, hlld, hpd]
              have hzero : countEvict prev st.events = 0 := by
                by_contra hpos
                exact dLt_irrefl prev (hlt prev prev hlld (by omega))
              have hrec := ih (step out sf ef st (.ok l)) hsort'
                (fun d2 => by
                  rw [hcnt' d2]
                  by_cases hpd2 : prev = d2
                  · subst hpd2
                    rw [hzero]
                    simp
                  · simp only [hpd2, if_false]
                    have := hc d2
                    omega)
                (fun d2 prev2 hl2 hge => by
                  rw [hlast'] at hl2
                  injection hl2 with he
                  subst he
                  rw [hcnt' d2] at hge
                  by_cases hpd2 : prev = d2
                  · subst hpd2
                    exact hprevlt
                  · simp only [hpd2, if_false] at hge
                    exact dLt_of_dLt_of_dLe d2 prev ts.date
                      (hlt d2 prev hlld (by omega)) hprevle)
                (fun prev2 hl2 => by
                  rw [hlast'] at hl2
                  injection hl2 with he
                  subst he
                  exact hhead)
                (fun hn => by rw [hlast'] at hn; cases hn)
                d
              simpa [okItems] using hrec

/-! ### Claim theorems -/

/-- C1: on a run of the sharding engine over any fully readable input stream
in which the error target never fails, the write events of the run are
exactly one per input line, in input order: a line that decodes and whose
shard append succeeds is appended only to the shard target of its date key,
and a line that fails decoding or whose shard append fails is appended only
to the error target; no line is written to both and no line is dropped. -/
theorem c1_every_line_exactly_one_target (out : String) (sf ef : Nat → Bool)
    (lines : List String) (hef : ef = fun _ => false) :
    (process_log_file out sf ef (okItems lines) []).events.filter Event.isWrite
      = routeEvents sf 0 lines := by
  subst hef
  obtain ⟨h1, h2, h3, h4, h5⟩ :=
    run_basic out sf (fun _ => false) lines (fun _ => rfl) (initSt out [])
      rfl rfl
  unfold process_log_file
  simp only [h1, if_false, Bool.false_eq_true, addEvent]
  rw [List.filter_append, h5]
  simp [initSt, Event.isWrite]

theorem c1_witness :
    ((fun _ : Nat => false) = fun _ : Nat => false) ∧
    (process_log_file "out" (fun _ => false) (fun _ => false)
        (okItems ["\x7b\"asctime\": \"2021-03-01 00:00:00,000\"\x7d", "oops"]) []).events.filter
        Event.isWrite
      = routeEvents (fun _ => false) 0
          ["\x7b\"asctime\": \"2021-03-01 00:00:00,000\"\x7d", "oops"] :=
  ⟨rfl, c1_every_line_exactly_one_target "out" (fun _ => false) (fun _ => false)
    ["\x7b\"asctime\": \"2021-03-01 00:00:00,000\"\x7d", "oops"] rfl⟩

/-- C9 counterexample: on the single-line stream whose line does not decode,
the engine reads one line but the final summary reports 0: the events of the
run are the error report, the error-target append, and a summary whose count
is 0 even though the number of input lines read is 1. -/
theorem c9_counterexample_summary_count :
    (process_log_file "out" (fun _ => false) (fun _ => false)
        (okItems ["oops"]) []).events
      = [.reportErr 0 "oops", .errorWrite "oops", .summary 0 1] ∧
    (["oops"] : List String).length = 1 ∧ (0 : Nat) ≠ 1 := by
  refine ⟨by decide, rfl, by decide⟩

/-- C9 amended: when the stream is exhausted the engine emits a final
summary whose count is the number of successfully decoded lines (lines that
fail decoding are not counted) together with the total elapsed time; and on
an empty input the summary reports 0 lines, no shard target is created, and
the error target is still created, empty. -/
theorem c9_final_summary (out : String) (sf ef : Nat → Bool)
    (lines : List String) (hef : ef = fun _ => false) :
    ((process_log_file out sf ef (okItems lines) []).events.getLast?
      = some (.summary ((lines.filter (fun l => (parse_date l).isOk)).length)
               lines.length)) ∧
    (process_log_file out sf ef [] []).files = [(errorPath out, [])] ∧
    (process_log_file out sf ef [] []).events = [.summary 0 0] := by
  subst hef
  refine ⟨?_, ?_, ?_⟩
  · obtain ⟨h1, h2, h3, h4, h5⟩ :=
      run_basic out sf (fun _ => false) lines (fun _ => rfl) (initSt out [])
        rfl rfl
    unfold process_log_file
    simp only [h1, Bool.false_eq_true, if_false, addEvent]
    rw [List.getLast?_concat, h4, h3]
    simp [initSt]
  · simp [process_log_file, initSt, addEvent, ensureFile]
  · simp [process_log_file, initSt, addEvent, ensureFile]

theorem c9_witness :
    ((fun _ : Nat => false) = fun _ : Nat => false) ∧
    ((process_log_file "out" (fun _ => false) (fun _ => false)
        (okItems ["\x7b\"asctime\": \"2021-03-01 00:00:00,000\"\x7d", "oops"]) []).events.getLast?
      = some (.summary 1 2) ∧
     (process_log_file "out" (fun _ => false) (fun _ => false) [] []).files
       = [(errorPath "out", [])] ∧
     (process_log_file "out" (fun _ => false) (fun _ => false) [] []).events
       = [.summary 0 0]) := by
  refine ⟨rfl, ?_⟩
  have h := c9_final_summary "out" (fun _ => false) (fun _ => false)
    ["\x7b\"asctime\": \"2021-03-01 00:00:00,000\"\x7d", "oops"] rfl
  have hc : ((["\x7b\"asctime\": \"2021-03-01 00:00:00,000\"\x7d", "oops"] : List String).filter
      (fun l => (parse_date l).isOk)).length = 1 := by decide
  rw [hc] at h
  exact h

/-- C2: on a fully readable input stream whose decoded records arrive in
non-decreasing date order and whose appends all succeed, for every
representable date D, decompressing the full content of the shard target of
D (the concatenation of all its frames) yields exactly the concatenation,
in input order and each followed by a newline, of the input lines whose
date key is D -- however many eviction cycles occurred for that date. -/
theorem c2_shard_content (out : String) (sf ef : Nat → Bool)
    (lines : List String) (D : NaiveDate) (hD : InRange D)
    (hsorted : sortedByDate (datesOf lines) = true)
    (hsf : sf = fun _ => false) (hef : ef = fun _ => false) :
    String.join
        (framesAt (process_log_file out sf ef (okItems lines) []).files
          (shardPath out D))
      = String.join
          ((lines.filter (fun l => dateOf l = some D)).map (fun l => l ++ "\n")) := by
  subst hsf hef
  obtain ⟨h1, h2, h3, h4, h5⟩ :=
    run_basic out (fun _ => false) (fun _ => false) lines (fun _ => rfl)
      (initSt out []) rfl rfl
  unfold process_log_file
  simp only [h1, Bool.false_eq_true, if_false, addEvent]
  rw [run_frames out (fun _ => false) (fun _ => false) lines D hD (fun _ => rfl)
    (fun _ => rfl) (initSt out []) rfl rfl]
  have hinit : framesAt (initSt out []).files (shardPath out D) = [] := by
    simp only [initSt, ensureFile, framesAt]
    split <;> rfl
  rw [hinit, List.nil_append]

theorem c2_witness :
    InRange ⟨2021, 3, 1⟩ ∧
    sortedByDate (datesOf
      ["\x7b\"asctime\": \"2021-03-01 00:00:00,000\", \"m\": \"A\"\x7d",
       "\x7b\"asctime\": \"2021-03-01 00:00:01,000\", \"m\": \"B\"\x7d",
       "\x7b\"asctime\": \"2021-03-02 00:00:00,000\", \"m\": \"C\"\x7d"]) = true ∧
    String.join
        (framesAt (process_log_file "out" (fun _ => false) (fun _ => false)
            (okItems
              ["\x7b\"asctime\": \"2021-03-01 00:00:00,000\", \"m\": \"A\"\x7d",
               "\x7b\"asctime\": \"2021-03-01 00:00:01,000\", \"m\": \"B\"\x7d",
               "\x7b\"asctime\": \"2021-03-02 00:00:00,000\", \"m\": \"C\"\x7d"]) []).files
          (shardPath "out" ⟨2021, 3, 1⟩))
      = String.join
          (((["\x7b\"asctime\": \"2021-03-01 00:00:00,000\", \"m\": \"A\"\x7d",
              "\x7b\"asctime\": \"2021-03-01 00:00:01,000\", \"m\": \"B\"\x7d",
              "\x7b\"asctime\": \"2021-03-02 00:00:00,000\", \"m\": \"C\"\x7d"] : List String).filter
              (fun l => dateOf l = some ⟨2021, 3, 1⟩)).map (fun l => l ++ "\n")) :=
  ⟨by decide, by decide,
   c2_shard_content "out" (fun _ => false) (fun _ => false) _ ⟨2021, 3, 1⟩
     (by decide) (by decide) rfl rfl⟩

/-- C3: when a decoded line's date key differs from the date in
RunState.currentDate, the step emits the progress message for the previous
date -- named with that date, the per-date record count, and the elapsed
time since that date started -- then evicts the previous date's handle, and
only after that appends the new line to its shard target; the per-date
counter is reset (it ends at 1, counting only the new line), the per-date
timer restarts, and the previous date is no longer in the registry. -/
theorem c3_boundary_crossing (out : String) (sf ef : Nat → Bool) (st : St)
    (line : String) (ts : NaiveDateTime) (prev : NaiveDate)
    (ha : st.aborted = false) (hs : st.stopped = false)
    (hp : parse_date line = .ok ts)
    (hprev : st.last_line_date = some prev) (hne : prev ≠ ts.date)
    (hnodup : st.handlers.Nodup)
    (hsf : sf (st.clock + 1) = false) (hef : ef (st.clock + 1) = false) :
    (step out sf ef st (.ok line)).events
      = st.events ++
        [.progress prev st.entry_count (st.clock + 1 - st.log_start),
         .evict prev, .shardWrite ts.date line] ∧
    (step out sf ef st (.ok line)).entry_count = 1 ∧
    prev ∉ (step out sf ef st (.ok line)).handlers ∧
    (step out sf ef st (.ok line)).log_start = st.clock + 1 ∧
    (step out sf ef st (.ok line)).last_line_date = some ts.date := by
  obtain ⟨f, hns, lc, ec, lld, ck, ls, ev, ab, sp⟩ := st
  simp only at ha hs hsf hef hprev hnodup ⊢
  subst ha hs hprev
  unfold step
  simp only [hp]
  unfold boundaryPhase ensureHandler writePhase countPhase addEvent
  have hne2 : ¬ prev = ts.date := hne
  have herase : prev ∉ hns.erase prev := hnodup.not_mem_erase
  by_cases hmem : ts.date ∈ hns.erase prev <;>
    simp_all [hsf, hef, List.append_assoc]

theorem c3_witness :
    (parse_date "\x7b\"asctime\": \"2021-03-02 00:00:00,000\"\x7d"
        = .ok ⟨⟨2021, 3, 2⟩, 0, 0, 0, 0⟩) ∧
    (step "out" (fun _ => false) (fun _ => false)
        { files := [(errorPath "out", []), (shardPath "out" ⟨2021, 3, 1⟩, ["a\n"])],
          handlers := [⟨2021, 3, 1⟩], line_count := 1, entry_count := 1,
          last_line_date := some ⟨2021, 3, 1⟩, clock := 1, log_start := 0,
          events := [], aborted := false, stopped := false }
        (.ok "\x7b\"asctime\": \"2021-03-02 00:00:00,000\"\x7d")).events
      = [.progress ⟨2021, 3, 1⟩ 1 2, .evict ⟨2021, 3, 1⟩,
         .shardWrite ⟨2021, 3, 2⟩ "\x7b\"asctime\": \"2021-03-02 00:00:00,000\"\x7d"] ∧
    (step "out" (fun _ => false) (fun _ => false)
        { files := [(errorPath "out", []), (shardPath "out" ⟨2021, 3, 1⟩, ["a\n"])],
          handlers := [⟨2021, 3, 1⟩], line_count := 1, entry_count := 1,
          last_line_date := some ⟨2021, 3, 1⟩, clock := 1, log_start := 0,
          events := [], aborted := false, stopped := false }
        (.ok "\x7b\"asctime\": \"2021-03-02 00:00:00,000\"\x7d")).entry_count = 1 ∧
    ⟨2021, 3, 1⟩ ∉ (step "out" (fun _ => false) (fun _ => false)
        { files := [(errorPath "out", []), (shardPath "out" ⟨2021, 3, 1⟩, ["a\n"])],
          handlers := [⟨2021, 3, 1⟩], line_count := 1, entry_count := 1,
          last_line_date := some ⟨2021, 3, 1⟩, clock := 1, log_start := 0,
          events := [], aborted := false, stopped := false }
        (.ok "\x7b\"asctime\": \"2021-03-02 00:00:00,000\"\x7d")).handlers := by
  refine ⟨by decide, ?_⟩
  obtain ⟨h1, h2, h3, h4, h5⟩ := c3_boundary_crossing "out" (fun _ => false) (fun _ => false)
    { files := [(errorPath "out", []), (shardPath "out" ⟨2021, 3, 1⟩, ["a\n"])],
      handlers := [⟨2021, 3, 1⟩], line_count := 1, entry_count := 1,
      last_line_date := some ⟨2021, 3, 1⟩, clock := 1, log_start := 0,
      events := [], aborted := false, stopped := false }
    "\x7b\"asctime\": \"2021-03-02 00:00:00,000\"\x7d" ⟨⟨2021, 3, 2⟩, 0, 0, 0, 0⟩
    ⟨2021, 3, 1⟩ rfl rfl (by decide) rfl (by decide) (by decide) rfl rfl
  exact ⟨h1, h2, h3⟩

/-- C6: a line whose decoding or timestamp extraction fails is reported,
appended raw (with a newline, as one flushed frame) to the error target, and
the run continues: the step does not abort, leaves the current date, the
registry, the line counter and every other target untouched, and creates no
shard target. -/
theorem c6_decode_failure_isolated (out : String) (sf ef : Nat → Bool) (st : St)
    (line : String)
    (ha : st.aborted = false) (hs : st.stopped = false)
    (hp : parse_date line = .error ())
    (hef : ef (st.clock + 1) = false) :
    step out sf ef st (.ok line)
      = { st with
          clock := st.clock + 1,
          events := st.events ++ [.reportErr st.line_count line, .errorWrite line],
          files := dump_line st.files (errorPath out) line } ∧
    (step out sf ef st (.ok line)).aborted = false ∧
    (step out sf ef st (.ok line)).last_line_date = st.last_line_date ∧
    (step out sf ef st (.ok line)).handlers = st.handlers ∧
    (step out sf ef st (.ok line)).line_count = st.line_count ∧
    framesAt (step out sf ef st (.ok line)).files (errorPath out)
      = framesAt st.files (errorPath out) ++ [line ++ "\n"] ∧
    (∀ q, q ≠ errorPath out →
      framesAt (step out sf ef st (.ok line)).files q = framesAt st.files q) ∧
    (∀ q, q ≠ errorPath out →
      fileExists (step out sf ef st (.ok line)).files q = fileExists st.files q) := by
  have h := step_decodeErr out sf ef st line ha hs hp hef
  rw [h]
  refine ⟨rfl, ha, rfl, rfl, rfl, ?_, ?_, ?_⟩
  · exact framesAt_dump_line_same st.files (errorPath out) line
  · intro q hq
    exact framesAt_dump_line_other st.files (errorPath out) q line hq
  · intro q hq
    exact fileExists_dump_line_other st.files (errorPath out) q line hq

theorem c6_witness :
    (parse_date "\x7b\"m\": \"X\"\x7d" = .error ()) ∧
    step "out" (fun _ => false) (fun _ => false)
        { files := [(errorPath "out", [])], handlers := [], line_count := 0,
          entry_count := 0, last_line_date := none, clock := 0, log_start := 0,
          events := [], aborted := false, stopped := false }
        (.ok "\x7b\"m\": \"X\"\x7d")
      = { files := dump_line [(errorPath "out", [])] (errorPath "out") "\x7b\"m\": \"X\"\x7d",
          handlers := [], line_count := 0, entry_count := 0, last_line_date := none,
          clock := 1, log_start := 0,
          events := [.reportErr 0 "\x7b\"m\": \"X\"\x7d", .errorWrite "\x7b\"m\": \"X\"\x7d"],
          aborted := false, stopped := false } :=
  ⟨by decide,
   (c6_decode_failure_isolated "out" (fun _ => false) (fun _ => false)
      { files := [(errorPath "out", [])], handlers := [], line_count := 0,
        entry_count := 0, last_line_date := none, clock := 0, log_start := 0,
        events := [], aborted := false, stopped := false }
      "\x7b\"m\": \"X\"\x7d" rfl rfl (by decide) rfl).1⟩

/-- C7: a decoded line whose shard append fails is reported and forwarded
raw to the error target, and the run continues; but when the error-target
append itself fails the step aborts the run -- both after a failed shard
append and after a failed decode -- with no further fallback. -/
theorem c7_write_failure_handling (out : String) (sf ef : Nat → Bool) (st : St)
    (line : String) (ts : NaiveDateTime)
    (ha : st.aborted = false) (hs : st.stopped = false)
    (hp : parse_date line = .ok ts)
    (hlast : st.last_line_date = some ts.date)
    (hsf : sf (st.clock + 1) = true) :
    (ef (st.clock + 1) = false →
      (step out sf ef st (.ok line)).aborted = false ∧
      (step out sf ef st (.ok line)).events
        = st.events ++ [.reportErr st.line_count line, .errorWrite line] ∧
      framesAt (step out sf ef st (.ok line)).files (errorPath out)
        = framesAt st.files (errorPath out) ++ [line ++ "\n"] ∧
      (step out sf ef st (.ok line)).last_line_date = some ts.date ∧
      (step out sf ef st (.ok line)).line_count = st.line_count + 1) ∧
    (ef (st.clock + 1) = true →
      (step out sf ef st (.ok line)).aborted = true ∧
      (step out sf ef st (.ok line)).events
        = st.events ++ [.reportErr st.line_count line]) ∧
    (∀ line2, parse_date line2 = .error () → ef (st.clock + 1) = true →
      (step out sf ef st (.ok line2)).aborted = true) := by
  obtain ⟨f, hns, lc, ec, lld, ck, ls, ev, ab, sp⟩ := st
  simp only at ha hs hsf hlast ⊢
  subst ha hs hlast
  refine ⟨?_, ?_, ?_⟩
  · intro hef
    unfold step
    simp only [hp]
    unfold boundaryPhase ensureHandler writePhase countPhase addEvent
    by_cases hmem : ts.date ∈ hns <;>
      simp_all [hsf, hef, framesAt_dump_line_same, framesAt_ensureFile,
        framesAt_dump_after_ensure]
  · intro hef
    unfold step
    simp only [hp]
    unfold boundaryPhase ensureHandler writePhase countPhase addEvent
    by_cases hmem : ts.date ∈ hns <;> simp_all [hsf, hef]
  · intro line2 hp2 hef
    unfold step
    simp only [hp2]
    simp [hef, addEvent]

theorem c7_witness :
    ((fun _ : Nat => true) (0 + 1) = true) ∧
    ((step "out" (fun _ => true) (fun _ => false)
        { files := [(errorPath "out", []), (shardPath "out" ⟨2021, 3, 1⟩, [])],
          handlers := [⟨2021, 3, 1⟩], line_count := 0, entry_count := 0,
          last_line_date := some ⟨2021, 3, 1⟩, clock := 0, log_start := 0,
          events := [], aborted := false, stopped := false }
        (.ok "\x7b\"asctime\": \"2021-03-01 00:00:00,000\"\x7d")).aborted = false ∧
     (step "out" (fun _ => true) (fun _ => true)
        { files := [(errorPath "out", []), (shardPath "out" ⟨2021, 3, 1⟩, [])],
          handlers := [⟨2021, 3, 1⟩], line_count := 0, entry_count := 0,
          last_line_date := some ⟨2021, 3, 1⟩, clock := 0, log_start := 0,
          events := [], aborted := false, stopped := false }
        (.ok "\x7b\"asctime\": \"2021-03-01 00:00:00,000\"\x7d")).aborted = true) := by
  refine ⟨rfl, ?_, ?_⟩
  · exact ((c7_write_failure_handling "out" (fun _ => true) (fun _ => false)
      { files := [(errorPath "out", []), (shardPath "out" ⟨2021, 3, 1⟩, [])],
        handlers := [⟨2021, 3, 1⟩], line_count := 0, entry_count := 0,
        last_line_date := some ⟨2021, 3, 1⟩, clock := 0, log_start := 0,
        events := [], aborted := false, stopped := false }
      "\x7b\"asctime\": \"2021-03-01 00:00:00,000\"\x7d" ⟨⟨2021, 3, 1⟩, 0, 0, 0, 0⟩
      rfl rfl (by decide) rfl rfl).1 rfl).1
  · exact ((c7_write_failure_handling "out" (fun _ => true) (fun _ => true)
      { files := [(errorPath "out", []), (shardPath "out" ⟨2021, 3, 1⟩, [])],
        handlers := [⟨2021, 3, 1⟩], line_count := 0, entry_count := 0,
        last_line_date := some ⟨2021, 3, 1⟩, clock := 0, log_start := 0,
        events := [], aborted := false, stopped := false }
      "\x7b\"asctime\": \"2021-03-01 00:00:00,000\"\x7d" ⟨⟨2021, 3, 1⟩, 0, 0, 0, 0⟩
      rfl rfl (by decide) rfl rfl).2.1 rfl).1

/-- C8: under non-decreasing input date order, after every prefix of the run
at most one shard handle is open in the registry, and when the run has not
aborted the registry holds exactly the current date's handle; over the whole
run each date key is evicted at most once; and one step evicts the previous
date exactly once when it observes a date change and evicts nothing when the
date is unchanged. -/
theorem c8_registry_single_handle (out : String) (sf ef : Nat → Bool)
    (lines : List String)
    (hsorted : sortedByDate (datesOf lines) = true) :
    (∀ n : Nat,
      ((((okItems lines).take n).foldl (step out sf ef) (initSt out [])).handlers.length ≤ 1 ∧
       ((((okItems lines).take n).foldl (step out sf ef) (initSt out [])).aborted = false →
         (((okItems lines).take n).foldl (step out sf ef) (initSt out [])).handlers
           = (((okItems lines).take n).foldl (step out sf ef)
               (initSt out [])).last_line_date.toList))) ∧
    (∀ d, countEvict d (process_log_file out sf ef (okItems lines) []).events ≤ 1) ∧
    (∀ (st2 : St) (line2 : String) (ts2 : NaiveDateTime) (prev2 : NaiveDate),
      st2.aborted = false → st2.stopped = false →
      parse_date line2 = .ok ts2 → st2.last_line_date = some prev2 →
      (prev2 ≠ ts2.date →
        countEvict prev2 (step out sf ef st2 (.ok line2)).events
          = countEvict prev2 st2.events + 1) ∧
      (prev2 = ts2.date →
        ∀ d, countEvict d (step out sf ef st2 (.ok line2)).events
          = countEvict d st2.events)) := by
  refine ⟨?_, ?_, ?_⟩
  · intro n
    have hinv := run_handlers_inv out sf ef ((okItems lines).take n) (initSt out [])
      (fun _ => rfl) (by simp [initSt])
    exact ⟨hinv.2, hinv.1⟩
  · intro d
    have hfold := run_evict_once out sf ef lines (initSt out []) hsorted
      (fun d2 => by simp [initSt, countEvict])
      (fun d2 prev2 hl2 _ => by simp [initSt] at hl2)
      (fun prev2 hl2 => by simp [initSt] at hl2)
      (fun _ d2 => by simp [initSt, countEvict])
      d
    unfold process_log_file
    simp only []
    split
    · exact hfold
    · simp only [addEvent]
      rw [countEvict_append]
      simpa [countEvict] using hfold
  · intro st2 line2 ts2 prev2 ha hs hp hl
    have hcount := step_countEvict out sf ef st2 line2 ha hs
    constructor
    · intro hne
      rw [hcount prev2]
      simp [hp, hl, hne]
    · intro heq
      intro d
      rw [hcount d]
      simp [hp, hl, heq]

theorem c8_witness :
    sortedByDate (datesOf
      ["\x7b\"asctime\": \"2021-03-01 00:00:00,000\"\x7d",
       "\x7b\"asctime\": \"2021-03-02 00:00:00,000\"\x7d"]) = true ∧
    countEvict ⟨2021, 3, 1⟩
        (process_log_file "out" (fun _ => false) (fun _ => false)
          (okItems
            ["\x7b\"asctime\": \"2021-03-01 00:00:00,000\"\x7d",
             "\x7b\"asctime\": \"2021-03-02 00:00:00,000\"\x7d"]) []).events ≤ 1 :=
  ⟨by decide,
   (c8_registry_single_handle "out" (fun _ => false) (fun _ => false)
      ["\x7b\"asctime\": \"2021-03-01 00:00:00,000\"\x7d",
       "\x7b\"asctime\": \"2021-03-02 00:00:00,000\"\x7d"] (by decide)).2.1 ⟨2021, 3, 1⟩⟩

theorem set_stopped_self (s : St) (h : s.stopped = true) :
    { s with stopped := true } = s := by
  obtain ⟨f, hns, lc, ec, lld, ck, ls, ev, ab, sp⟩ := s
  simp only at h
  subst h
  rfl

/-- C10: when the line iterator yields a read error mid-run, processing
stops silently at that point: the items after the failed read are never
consumed, no error is reported for it, the final summary is still emitted
with the counts accumulated so far, and the run ends without a failure
indication; the passthrough echo loop truncates at the first read error in
the same silent way. -/
theorem c10_read_error_truncates (out : String) (sf ef : Nat → Bool)
    (pre post : List (Except Unit String))
    (hab : (pre.foldl (step out sf ef) (initSt out [])).aborted = false) :
    process_log_file out sf ef (pre ++ .error () :: post) []
      = addEvent (.summary (pre.foldl (step out sf ef) (initSt out [])).line_count
                    (pre.foldl (step out sf ef) (initSt out [])).clock)
          { (pre.foldl (step out sf ef) (initSt out [])) with stopped := true } ∧
    (process_log_file out sf ef (pre ++ .error () :: post) []).aborted = false ∧
    (∀ (ls2 : List String) (post2 : List (Except Unit String)),
      echoLines (okItems ls2 ++ .error () :: post2) = ls2) := by
  have hmain : process_log_file out sf ef (pre ++ .error () :: post) []
      = addEvent (.summary (pre.foldl (step out sf ef) (initSt out [])).line_count
                    (pre.foldl (step out sf ef) (initSt out [])).clock)
          { (pre.foldl (step out sf ef) (initSt out [])) with stopped := true } := by
    unfold process_log_file
    rw [List.foldl_append]
    simp only [List.foldl_cons]
    cases hstop : (pre.foldl (step out sf ef) (initSt out [])).stopped with
    | true =>
      rw [step_halted out sf ef _ _ (Or.inr hstop),
        foldl_halted out sf ef _ _ (Or.inr hstop),
        set_stopped_self _ hstop]
      simp only [hab, Bool.false_eq_true, if_false]
    | false =>
      rw [step_readErr out sf ef _ () hab hstop]
      rw [foldl_halted out sf ef _ _ (Or.inr rfl)]
      simp only [hab, Bool.false_eq_true, if_false]
  refine ⟨hmain, ?_, ?_⟩
  · rw [hmain]
    simp [addEvent, hab]
  · intro ls2 post2
    induction ls2 with
    | nil => rfl
    | cons l rest ih => simp [okItems, echoLines] at ih ⊢; exact ih

theorem c10_witness :
    (([Except.ok "x"].foldl (step "out" (fun _ => false) (fun _ => false))
        (initSt "out" [])).aborted = false) ∧
    (process_log_file "out" (fun _ => false) (fun _ => false)
        ([Except.ok "x"] ++ .error () :: [Except.ok "y"]) []
      = addEvent (.summary ([Except.ok "x"].foldl
            (step "out" (fun _ => false) (fun _ => false)) (initSt "out" [])).line_count
            ([Except.ok "x"].foldl (step "out" (fun _ => false) (fun _ => false))
              (initSt "out" [])).clock)
          { ([Except.ok "x"].foldl (step "out" (fun _ => false) (fun _ => false))
              (initSt "out" [])) with stopped := true } ∧
     (process_log_file "out" (fun _ => false) (fun _ => false)
        ([Except.ok "x"] ++ .error () :: [Except.ok "y"]) []).aborted = false ∧
     (∀ (ls2 : List String) (post2 : List (Except Unit String)),
       echoLines (okItems ls2 ++ .error () :: post2) = ls2)) :=
  ⟨by decide,
   c10_read_error_truncates "out" (fun _ => false) (fun _ => false)
     [Except.ok "x"] [Except.ok "y"] (by decide)⟩

/-- C4 evidence: with the output token "-", main echoes the raw lines, but
then (main.rs line 38) still runs the sharding engine with "-" as the
output path: the error target "-.error.gz" is created and the line is
appended to the shard target "-.2021-03-01.jsonl.gz", contradicting the
claim that no shard or error target is created in passthrough mode. -/
theorem c4_passthrough_still_shards :
    (mainRun "in.log" "-" (okItems ["\x7b\"asctime\": \"2021-03-01 00:00:00,000\"\x7d"])
        (fun _ => false) (fun _ => false) (fun _ => false) (fun _ => false)).stdout
      = ["\x7b\"asctime\": \"2021-03-01 00:00:00,000\"\x7d"] ∧
    List.lookup (errorPath "-")
        (mainRun "in.log" "-" (okItems ["\x7b\"asctime\": \"2021-03-01 00:00:00,000\"\x7d"])
          (fun _ => false) (fun _ => false) (fun _ => false) (fun _ => false)).files
      = some [] ∧
    List.lookup (shardPath "-" ⟨2021, 3, 1⟩)
        (mainRun "in.log" "-" (okItems ["\x7b\"asctime\": \"2021-03-01 00:00:00,000\"\x7d"])
          (fun _ => false) (fun _ => false) (fun _ => false) (fun _ => false)).files
      = some ["\x7b\"asctime\": \"2021-03-01 00:00:00,000\"\x7d\n"] := by
  refine ⟨by decide, by decide, by decide⟩

/-- C5 evidence: with no output argument and input path "app.json.1", main
first shards under the default prefix "app", but then (main.rs line 38)
reprocesses the input with the raw empty output argument, creating targets
".error.gz" and ".2021-03-01.jsonl.gz" under the empty prefix as well,
contradicting the claim that no target is created under any other prefix. -/
theorem c5_default_output_extra_targets :
    List.lookup (errorPath "app")
        (mainRun "app.json.1" "" (okItems ["\x7b\"asctime\": \"2021-03-01 00:00:00,000\"\x7d"])
          (fun _ => false) (fun _ => false) (fun _ => false) (fun _ => false)).files
      = some [] ∧
    List.lookup (errorPath "")
        (mainRun "app.json.1" "" (okItems ["\x7b\"asctime\": \"2021-03-01 00:00:00,000\"\x7d"])
          (fun _ => false) (fun _ => false) (fun _ => false) (fun _ => false)).files
      = some [] ∧
    List.lookup (shardPath "" ⟨2021, 3, 1⟩)
        (mainRun "app.json.1" "" (okItems ["\x7b\"asctime\": \"2021-03-01 00:00:00,000\"\x7d"])
          (fun _ => false) (fun _ => false) (fun _ => false) (fun _ => false)).files
      = some ["\x7b\"asctime\": \"2021-03-01 00:00:00,000\"\x7d\n"] := by
  refine ⟨by decide, by decide, by decide⟩
